import Mathlib

/-!
# Verification of the IPA syllabifier (`package/syllabifiers/ipa.py`)

Shallow embedding of the syllabification pipeline.  Strings are modelled as
`List Char` (`Str`).  The Python `regex` patterns built by `regex_en_ipa` are
embedded as an explicit backtracking matcher over a `Profile` of vowels,
diphthongs and consonants; `findall` over the zero-width lookahead pattern is
modelled as the scan over every position of the string, collecting the first
capture group wherever the pattern matches (an empty match advances the scan
position by one, so every position is tried).
-/

abbrev Str := List Char

/-- A symbol inventory, the data interpolated into the regex patterns of
`regex_en_ipa`: single-character vowels, multi-character diphthongs (tried in
order after the single-vowel alternative), and single-character consonants. -/
structure Profile where
  vowels : Str
  diphthongs : List Str
  consonants : Str
deriving Repr, DecidableEq

def isVowel (P : Profile) (c : Char) : Bool := P.vowels.contains c

def isConsonant (P : Profile) (c : Char) : Bool := P.consonants.contains c

/-- Length of the maximal consonant run at the head of `s`: the greedy extent
of `[{consonants}]*`. -/
def consRunLen (P : Profile) : Str → Nat
  | [] => 0
  | c :: t => if isConsonant P c then consRunLen P t + 1 else 0

/-- `n, n-1, …, 0`: the candidate lengths of a greedy `*` in backtracking
order (longest first). -/
def descRange (n : Nat) : List Nat := (List.range (n + 1)).reverse

/-- Candidate lengths for the nucleus `(?:[{vowels}]|{diphtongues})` at the
head of `t`, in alternation order: the single-vowel alternative first, then
each diphthong in the order listed in the pattern. -/
def nucleusLens (P : Profile) (t : Str) : List Nat :=
  (match t with
    | c :: _ => if isVowel P c then [1] else []
    | [] => []) ++
  P.diphthongs.filterMap fun d => if d.isPrefixOf t then some d.length else none

/-- The trailing context `(?:[{vowels}]|{diphtongues}|$)`: a zero-width test
at suffix `t` (the alternation order is irrelevant as nothing is captured). -/
def contextOk (P : Profile) (t : Str) : Bool :=
  (match t with
    | c :: _ => isVowel P c
    | [] => false)
  || P.diphthongs.any (·.isPrefixOf t)
  || t.isEmpty

/-- The capture group `([{consonants}]* (?:[{vowels}]|{diphtongues})
[{consonants}]*)` followed by the trailing context, matched at the head of
suffix `s` with the regex engine's backtracking order: greedy onset (longest
first), nucleus alternatives in pattern order, greedy coda (longest first).
Returns the captured substring of the first successful assignment. -/
def matchGroupAt (P : Profile) (s : Str) : Option Str :=
  (descRange (consRunLen P s)).findSome? fun k =>
    (nucleusLens P (s.drop k)).findSome? fun nl =>
      (descRange (consRunLen P ((s.drop k).drop nl))).findSome? fun cl =>
        if contextOk P (((s.drop k).drop nl).drop cl) then some (s.take (k + nl + cl))
        else none

/-- The lookbehind `(?<=[{vowels}]|{diphtongues}|^)`: succeeds at a position
whose preceding characters are `pre` iff the position is the start of the
string, or the previous character is a vowel, or a diphthong ends there. -/
def lookbehindOk (P : Profile) (pre : Str) : Bool :=
  (match pre.getLast? with
    | some c => isVowel P c
    | none => false)
  || P.diphthongs.any (·.isSuffixOf pre)
  || pre.isEmpty

/-- `pattern_syllable.findall(s)`: the whole pattern is a zero-width lookahead,
so the scan tries every position `0 … s.length`; wherever the lookbehind and
the group (with trailing context) succeed, the group-1 capture is collected. -/
def findall_syllable (P : Profile) (s : Str) : List Str :=
  (List.range (s.length + 1)).filterMap fun p =>
    if lookbehindOk P (s.take p) then matchGroupAt P (s.drop p) else none

/-- `pattern_consonant.findall(s)` for `(?<=^)(?:[{consonants}])+(?:$)`:
matches exactly the whole string, when it is a non-empty all-consonant run. -/
def findall_consonant (P : Profile) (s : Str) : List Str :=
  if s ≠ [] ∧ s.all (isConsonant P) then [s] else []

/-- The symbol inventory that `regex_en_ipa` interpolates into its two
patterns (the compiled patterns themselves are `findall_syllable en_profile`
and `findall_consonant en_profile`). -/
def en_profile : Profile where
  vowels := "æɑəɛiɪɔuʊʌ".data
  diphthongs := ["aj".data, "aw".data, "ej".data, "oj".data, "ow".data]
  consonants := "θwlmvhpɡŋszbkʃɹdnʒjtðf͡".data

/-- A phonemic string drawn from a profile's single-character alphabet: every
character is a vowel or a consonant of the profile. -/
def overAlphabet (P : Profile) (s : Str) : Prop :=
  ∀ c ∈ s, isVowel P c = true ∨ isConsonant P c = true

/-- `"_".join(ss)`. -/
def joinUnderscore (ss : List Str) : Str := (ss.intersperse ['_']).flatten

/-- `syllabify(word, ipa_converter, syllable_pattern, add_boundaries)`:
converts the word, collects the primary matcher's findings; if there are any,
joins them with `_`, otherwise joins the fallback consonant matcher's
findings; wraps with `#` when `add_boundaries`. -/
def syllabify (word : Str) (ipa_converter : Str → Str) (syllable_pattern : Profile)
    (add_boundaries : Bool) : Str :=
  let string := ipa_converter word
  let syllable_matches := findall_syllable syllable_pattern string
  let syllables :=
    if syllable_matches ≠ [] then joinUnderscore syllable_matches
    else joinUnderscore (findall_consonant syllable_pattern string)
  if add_boundaries then '#' :: syllables ++ ['#'] else syllables

/-- Python's default `str.strip` whitespace set. -/
def isPySpace (c : Char) : Bool :=
  c = ' ' || c = '\t' || c = '\n' || c = '\r' || c = '\x0b' || c = '\x0c'

/-- `line.split(" ")`: split on every single space, keeping empty pieces. -/
def splitOnChar (sep : Char) : Str → List Str
  | [] => [[]]
  | c :: rest =>
    if c = sep then [] :: splitOnChar sep rest
    else
      match splitOnChar sep rest with
      | h :: t => (c :: h) :: t
      | [] => [[c]]

/-- `tokenize(line)`: `line.strip().lower().split(" ")`, dropping empties. -/
def tokenize (line : Str) : List Str :=
  let stripped := ((line.dropWhile isPySpace).reverse.dropWhile isPySpace).reverse
  let lowered := stripped.map Char.toLower
  (splitOnChar ' ' lowered).filter (· ≠ [])

/-- `not_symbol_pattern.sub(" ", line)` for a character-class pattern of
disallowed symbols: every matched character is replaced by a single space. -/
def subNotSymbol (not_symbol : Char → Bool) (line : Str) : Str :=
  line.map fun c => if not_symbol c then ' ' else c

/-- Return value of `syllabify_line`: a `(cues, outcomes)` pair when
`as_event`, otherwise the plain list of syllabified words. -/
inductive LineResult where
  | event (cues outcomes : Str)
  | syllables (ss : List Str)
deriving Repr, DecidableEq

/-- The loop of `syllabify_line`: syllabify each word, appending the result
unless it equals `"##"`. -/
def surviving (ipa_converter : Str → Str) (P : Profile) (add_boundaries : Bool)
    (words : List Str) : List Str :=
  (words.map fun w => syllabify w ipa_converter P add_boundaries).filter
    (· ≠ ['#', '#'])

/-- `syllabify_line(line, ipa_converter, syllable_pattern, not_symbol_pattern,
add_boundaries, as_event)`: clean the line, tokenize, syllabify every word
dropping `"##"` results, and either join cues/outcomes or return the list. -/
def syllabify_line (line : Str) (ipa_converter : Str → Str) (P : Profile)
    (not_symbol : Char → Bool) (add_boundaries as_event : Bool) : LineResult :=
  let cleaned := subNotSymbol not_symbol line
  let words := tokenize cleaned
  let syllables := surviving ipa_converter P add_boundaries words
  if as_event then .event (joinUnderscore syllables) (joinUnderscore words)
  else .syllables syllables

/-- Fuel-indexed worker for `chunk`, structurally recursive on the fuel (the
length of the list bounds the number of slices, so `l.length` fuel always
suffices for a positive `chunksize`). -/
def chunkFuel {α : Type} (n : Nat) : Nat → List α → List (List α)
  | _, [] => []
  | 0, _ :: _ => []
  | fuel + 1, a :: l => ((a :: l).take n) :: chunkFuel n fuel ((a :: l).drop n)

/-- `chunk(iterable, chunksize)`: `iter(lambda: list(islice(it, n)), [])`
repeatedly slices off `n` items until the slice comes back empty (with
`n = 0` the first slice is already the `[]` sentinel, yielding no chunks). -/
def chunk {α : Type} (l : List α) (n : Nat) : List (List α) :=
  match n with
  | 0 => []
  | n + 1 => chunkFuel (n + 1) l.length l

/-- `pool.imap(f, xs, chunksize)`: `imap` applies `f` to each element and
yields the results one at a time in the order of the inputs (the worker pool
parallelism is unobservable in the result stream). -/
def pool_imap {α β : Type} (f : α → β) (xs : List α) : List β := xs.map f

/-- `syllabify_corpus_generator`: group the lines into batches of
`chunksize * numcores`, feed each batch to `pool.imap` of the partially
applied `syllabify_line`, and yield the results batch after batch. -/
def syllabify_corpus_generator (lines : List Str) (ipa_converter : Str → Str)
    (P : Profile) (not_symbol : Char → Bool) (add_boundaries as_event : Bool)
    (numcores chunksize : Nat) : List LineResult :=
  ((chunk lines (chunksize * numcores)).map fun c =>
    pool_imap (fun line =>
      syllabify_line line ipa_converter P not_symbol add_boundaries as_event) c).flatten

/-- One record written by `syllabify_corpus`'s loop body
(`outfile.write(f"{cues}\t{outcomes}\n")` after `cues, outcomes =
syllabified`; the `syllables` case cannot occur since `as_event=True`). -/
def writeRecord : LineResult → Str
  | .event cues outcomes => cues ++ '\t' :: outcomes ++ ['\n']
  | .syllables _ => []

/-- `syllabify_corpus`: the sequence of records written to the event file, one
per generator result, each `cues TAB outcomes NEWLINE`. -/
def syllabify_corpus (corpus : List Str) (ipa_converter : Str → Str) (P : Profile)
    (not_symbol : Char → Bool) (add_boundaries : Bool)
    (numcores chunksize : Nat) : List Str :=
  (syllabify_corpus_generator corpus ipa_converter P not_symbol add_boundaries
    true numcores chunksize).map writeRecord

/-- The memoization cache of `@lru_cache(maxsize=None)` on `syllabify`, for a
fixed converter and pattern: an association list from the remaining key
`(word, add_boundaries)` to the cached result string. -/
def SylCache : Type := List ((Str × Bool) × Str)

/-- An instrumented call to the memoized `syllabify`: on a cache hit the
stored string is returned and the body (hence the matcher) does not run; on a
miss the body runs once and the result is stored.  The third component counts
the body executions performed by this call. -/
def syllabify_cached (ipa_converter : Str → Str) (P : Profile) (cache : SylCache)
    (word : Str) (add_boundaries : Bool) : Str × SylCache × Nat :=
  match List.lookup (word, add_boundaries) cache with
  | some v => (v, cache, 0)
  | none =>
      let v := syllabify word ipa_converter P add_boundaries
      (v, ((word, add_boundaries), v) :: cache, 1)

/-! ## Helper lemmas -/

theorem chunkFuel_congr {α : Type} (n : Nat) (hn : 1 ≤ n) :
    ∀ (fuel₁ : Nat) (l : List α), l.length ≤ fuel₁ → ∀ fuel₂, l.length ≤ fuel₂ →
      chunkFuel n fuel₁ l = chunkFuel n fuel₂ l := by
  intro fuel₁
  induction fuel₁ with
  | zero =>
      intro l hl fuel₂ _
      obtain rfl := List.length_eq_zero.mp (Nat.le_zero.mp hl)
      cases fuel₂ <;> rfl
  | succ f ih =>
      intro l hl fuel₂ h2
      cases l with
      | nil => cases fuel₂ <;> rfl
      | cons a t =>
          cases fuel₂ with
          | zero => simp at h2
          | succ f₂ =>
              simp only [chunkFuel]
              congr 1
              apply ih
              · simp at hl ⊢
                omega
              · simp at h2 ⊢
                omega

theorem chunk_cons {α : Type} (a : α) (l : List α) (n : Nat) :
    chunk (a :: l) (n + 1)
      = ((a :: l).take (n + 1)) :: chunk ((a :: l).drop (n + 1)) (n + 1) := by
  show chunkFuel (n + 1) ((a :: l).length) (a :: l)
      = ((a :: l).take (n + 1))
          :: chunkFuel (n + 1) (((a :: l).drop (n + 1)).length) ((a :: l).drop (n + 1))
  rw [List.length_cons]
  simp only [chunkFuel]
  congr 1
  apply chunkFuel_congr (n + 1) (by omega)
  · simp
  · exact le_rfl

theorem chunk_flatten {α : Type} (l : List α) (n : Nat) (h : 1 ≤ n) :
    (chunk l n).flatten = l := by
  obtain ⟨m, rfl⟩ : ∃ m, n = m + 1 := ⟨n - 1, by omega⟩
  suffices H : ∀ (N : Nat) (l : List α), l.length ≤ N →
      (chunk l (m + 1)).flatten = l from H l.length l le_rfl
  intro N
  induction N with
  | zero =>
      intro l hl
      obtain rfl := List.length_eq_zero.mp (Nat.le_zero.mp hl)
      rfl
  | succ N ih =>
      intro l hl
      cases l with
      | nil => rfl
      | cons a t =>
          rw [chunk_cons, List.flatten_cons, ih _ (by simp at hl ⊢; omega),
            List.take_append_drop]

theorem chunk_mem_ne_nil_length {α : Type} (l : List α) (n : Nat) (h : 1 ≤ n) :
    ∀ c ∈ chunk l n, c ≠ [] ∧ c.length ≤ n := by
  obtain ⟨m, rfl⟩ : ∃ m, n = m + 1 := ⟨n - 1, by omega⟩
  suffices H : ∀ (N : Nat) (l : List α), l.length ≤ N →
      ∀ c ∈ chunk l (m + 1), c ≠ [] ∧ c.length ≤ m + 1 from H l.length l le_rfl
  intro N
  induction N with
  | zero =>
      intro l hl c hc
      obtain rfl := List.length_eq_zero.mp (Nat.le_zero.mp hl)
      simp [chunk, chunkFuel] at hc
  | succ N ih =>
      intro l hl c hc
      cases l with
      | nil => simp [chunk, chunkFuel] at hc
      | cons a t =>
          rw [chunk_cons] at hc
          rcases List.mem_cons.mp hc with rfl | hc'
          · exact ⟨by simp, by simp [List.length_take_le]⟩
          · exact ih _ (by simp at hl ⊢; omega) c hc'

theorem chunk_dropLast_length {α : Type} (l : List α) (n : Nat) (h : 1 ≤ n) :
    ∀ c ∈ (chunk l n).dropLast, c.length = n := by
  obtain ⟨m, rfl⟩ : ∃ m, n = m + 1 := ⟨n - 1, by omega⟩
  suffices H : ∀ (N : Nat) (l : List α), l.length ≤ N →
      ∀ c ∈ (chunk l (m + 1)).dropLast, c.length = m + 1 from H l.length l le_rfl
  intro N
  induction N with
  | zero =>
      intro l hl c hc
      obtain rfl := List.length_eq_zero.mp (Nat.le_zero.mp hl)
      simp [chunk, chunkFuel] at hc
  | succ N ih =>
      intro l hl c hc
      cases l with
      | nil => simp [chunk, chunkFuel] at hc
      | cons a t =>
          rw [chunk_cons] at hc
          rcases hrest : chunk ((a :: t).drop (m + 1)) (m + 1) with _ | ⟨r, rs⟩
          · rw [hrest] at hc
            simp at hc
          · rw [hrest, List.dropLast_cons_of_ne_nil (by simp)] at hc
            rcases List.mem_cons.mp hc with rfl | hc'
            · have hdrop : (a :: t).drop (m + 1) ≠ [] := by
                intro hnil
                rw [hnil] at hrest
                simp [chunk, chunkFuel] at hrest
              have hlen : m + 1 ≤ (a :: t).length := by
                by_contra hlt
                exact hdrop (List.drop_eq_nil_of_le (by omega))
              simp at hlen
              simp [List.length_take]
              omega
            · have hmem : c ∈ (chunk ((a :: t).drop (m + 1)) (m + 1)).dropLast := by
                rw [hrest]
                exact hc'
              exact ih ((a :: t).drop (m + 1)) (by simp at hl ⊢; omega) c hmem

theorem generator_eq_map (lines : List Str) (ipa_converter : Str → Str) (P : Profile)
    (not_symbol : Char → Bool) (add_boundaries as_event : Bool)
    (numcores chunksize : Nat) (hn : 1 ≤ numcores) (hc : 1 ≤ chunksize) :
    syllabify_corpus_generator lines ipa_converter P not_symbol add_boundaries
        as_event numcores chunksize
      = lines.map fun line =>
          syllabify_line line ipa_converter P not_symbol add_boundaries as_event := by
  unfold syllabify_corpus_generator pool_imap
  rw [← List.map_flatten, chunk_flatten _ _ (Nat.one_le_iff_ne_zero.mpr (by positivity))]

theorem matchGroupAt_eq_take (P : Profile) (s m : Str) (h : matchGroupAt P s = some m) :
    ∃ k, m = s.take k := by
  unfold matchGroupAt at h
  obtain ⟨k, -, hk⟩ := List.exists_of_findSome?_eq_some h
  obtain ⟨nl, -, hnl⟩ := List.exists_of_findSome?_eq_some hk
  obtain ⟨cl, -, hcl⟩ := List.exists_of_findSome?_eq_some hnl
  split at hcl
  · exact ⟨_, (Option.some.inj hcl).symm⟩
  · exact absurd hcl (by simp)

/-! ## Concrete instances used in counterexamples and witnesses -/

/-- The language profile of claim C4/C5's example: vowels `{a,e,i,o,u}`,
consonants `{p,t,k,m,n}`, no diphthongs. -/
def toy_profile : Profile where
  vowels := "aeiou".data
  diphthongs := []
  consonants := "ptkmn".data

/-- A concrete transcription function: `"a" ↦ "ɑ"`, everything else to the
empty string. -/
def toyConverter : Str → Str := fun w => if w = ['a'] then ['ɑ'] else []

/-! ## Claims -/

/-- C1: for every finite sequence of input lines and every `numcores ≥ 1` and
`chunksize ≥ 1`, the stream yielded by `syllabify_corpus_generator` equals, in
content and order, the sequence obtained by applying `syllabify_line` to each
line sequentially. -/
theorem C1_generator_preserves_order (lines : List Str) (ipa_converter : Str → Str)
    (P : Profile) (not_symbol : Char → Bool) (add_boundaries as_event : Bool)
    (numcores chunksize : Nat) (hn : 1 ≤ numcores) (hc : 1 ≤ chunksize) :
    syllabify_corpus_generator lines ipa_converter P not_symbol add_boundaries
        as_event numcores chunksize
      = lines.map fun line =>
          syllabify_line line ipa_converter P not_symbol add_boundaries as_event :=
  generator_eq_map lines ipa_converter P not_symbol add_boundaries as_event
    numcores chunksize hn hc

theorem C1_generator_preserves_order_witness :
    (1 : Nat) ≤ 2 ∧ (1 : Nat) ≤ 3 ∧
      syllabify_corpus_generator ["a x".data, "pat".data, []] toyConverter en_profile
          (fun _ => false) true true 2 3
        = (["a x".data, "pat".data, []] : List Str).map fun line =>
            syllabify_line line toyConverter en_profile (fun _ => false) true true :=
  ⟨by decide, by decide,
    C1_generator_preserves_order _ _ _ _ _ _ _ _ (by decide) (by decide)⟩

/-- C2 counterexample: with transcription `a ↦ ɑ`, `x ↦ ""` on the line
`"a x"`, the word `x` is dropped from the cues but kept in the outcomes, so
the underscore-split entry counts differ (1 vs 2): the claimed joint dropping
is false. -/
theorem C2_counterexample :
    syllabify_line "a x".data toyConverter en_profile (fun _ => false) true true
        = .event "#ɑ#".data "a_x".data ∧
      (splitOnChar '_' "#ɑ#".data).length ≠ (splitOnChar '_' "a_x".data).length := by
  decide

/-- C2 amended: a word whose syllabification is `##` is dropped from the cues
sequence only; the outcomes string joins every tokenized word.  The cues are
exactly the syllabifications of the surviving words, in order. -/
theorem C2_amended_cues_filtered_only (line : Str) (ipa_converter : Str → Str)
    (P : Profile) (not_symbol : Char → Bool) (add_boundaries : Bool) :
    syllabify_line line ipa_converter P not_symbol add_boundaries true
      = .event
          (joinUnderscore
            (((tokenize (subNotSymbol not_symbol line)).filter fun w =>
                syllabify w ipa_converter P add_boundaries ≠ ['#', '#']).map
              fun w => syllabify w ipa_converter P add_boundaries))
          (joinUnderscore (tokenize (subNotSymbol not_symbol line))) := by
  simp only [syllabify_line, surviving, List.filter_map]
  rfl

/-- C3 counterexample: a corpus consisting of one empty line produces the
written record `"\t\n"` — the pipeline does emit a blank tab-separated line
instead of omitting the line. -/
theorem C3_counterexample :
    syllabify_corpus [([] : Str)] toyConverter en_profile (fun _ => false) true 1 1
        = [['\t', '\n']] ∧ ([['\t', '\n']] : List Str) ≠ [] := by
  decide

/-- C3 amended: the pipeline writes exactly one tab-separated record per input
line; a line with zero surviving words yields a record with empty cues and
empty outcomes (a line holding only a tab), not an omission. -/
theorem C3_amended_one_record_per_line (corpus : List Str) (ipa_converter : Str → Str)
    (P : Profile) (not_symbol : Char → Bool) (add_boundaries : Bool)
    (numcores chunksize : Nat) (hn : 1 ≤ numcores) (hc : 1 ≤ chunksize) :
    syllabify_corpus corpus ipa_converter P not_symbol add_boundaries numcores chunksize
      = corpus.map fun line =>
          writeRecord (syllabify_line line ipa_converter P not_symbol add_boundaries
            true) := by
  unfold syllabify_corpus
  rw [generator_eq_map _ _ _ _ _ _ _ _ hn hc, List.map_map]
  rfl

theorem C3_amended_one_record_per_line_witness :
    (1 : Nat) ≤ 1 ∧
      syllabify_corpus [([] : Str)] toyConverter en_profile (fun _ => false) true 1 1
        = ([([] : Str)]).map fun line =>
            writeRecord (syllabify_line line toyConverter en_profile (fun _ => false)
              true true) :=
  ⟨by decide, C3_amended_one_record_per_line _ _ _ _ _ _ _ (by decide) (by decide)⟩

/-- C4 counterexample: on `"patato"` with vowels `{a,e,i,o,u}` and consonants
`{p,t,k,m,n}`, the matcher does not yield `["pa","ta","to"]` and `syllabify`
does not return `"#pa_ta_to#"`. -/
theorem C4_counterexample :
    findall_syllable toy_profile "patato".data
        ≠ ["pa".data, "ta".data, "to".data] ∧
      syllabify "patato".data (fun w => w) toy_profile true ≠ "#pa_ta_to#".data := by
  decide

/-- C4 amended: the matcher yields `["pat","tat","to"]` — each syllable's
greedy coda takes the consonants up to the next nucleus, which reappear as the
next syllable's onset — so `syllabify` with boundaries returns
`"#pat_tat_to#"`. -/
theorem C4_amended_matches :
    findall_syllable toy_profile "patato".data
        = ["pat".data, "tat".data, "to".data] ∧
      syllabify "patato".data (fun w => w) toy_profile true = "#pat_tat_to#".data := by
  decide

/-- C5 counterexample: for the word `"ata"` (identity transcription, profile
of C4), the joined, boundary-stripped syllabification is `"atta"`, whose
character multiset differs from `"ata"`: the intervocalic `t` is captured by
both neighbouring syllables. -/
theorem C5_counterexample :
    ¬ ((syllabify "ata".data (fun w => w) toy_profile true).filter
          (fun c => !(c = '_' || c = '#'))).Perm "ata".data := by
  decide

/-- Every match produced by the syllable matcher is a contiguous substring of
the scanned string. -/
theorem findall_match_contiguous (P : Profile) (s m : Str)
    (h : m ∈ findall_syllable P s) : m <:+: s := by
  unfold findall_syllable at h
  obtain ⟨p, -, hp⟩ := List.mem_filterMap.mp h
  split at hp
  · obtain ⟨k, rfl⟩ := matchGroupAt_eq_take P _ _ hp
    exact ((List.take_prefix _ _).isInfix).trans (List.drop_suffix p s).isInfix
  · exact absurd hp (by simp)

/-- C7: the result of `syllabify` with `add_boundaries` is exactly `#`
prepended and appended to the result without boundaries. -/
theorem C7_boundary_wrap (word : Str) (ipa_converter : Str → Str) (P : Profile) :
    syllabify word ipa_converter P true
      = '#' :: syllabify word ipa_converter P false ++ ['#'] := by
  simp [syllabify]

/-- C9: calling the memoized `syllabify` twice with identical arguments
returns an identical string, and the second call performs no matcher
invocation (its body-execution count is 0) because the value comes from the
cache. -/
theorem C9_second_call_cached (ipa_converter : Str → Str) (P : Profile)
    (cache : SylCache) (word : Str) (add_boundaries : Bool) :
    (syllabify_cached ipa_converter P
        (syllabify_cached ipa_converter P cache word add_boundaries).2.1
        word add_boundaries).1
      = (syllabify_cached ipa_converter P cache word add_boundaries).1 ∧
    (syllabify_cached ipa_converter P
        (syllabify_cached ipa_converter P cache word add_boundaries).2.1
        word add_boundaries).2.2 = 0 := by
  unfold syllabify_cached
  cases hc : List.lookup (word, add_boundaries) cache with
  | some v => simp [hc]
  | none => simp [hc, List.lookup]

/-- C10: for `chunksize ≥ 1`, concatenating the chunks gives back the original
sequence; every chunk is non-empty with at most `chunksize` elements, and all
chunks except possibly the last have exactly `chunksize` elements. -/
theorem C10_chunk_partition {α : Type} (l : List α) (n : Nat) (h : 1 ≤ n) :
    (chunk l n).flatten = l ∧ (∀ c ∈ chunk l n, c ≠ [] ∧ c.length ≤ n) ∧
      ∀ c ∈ (chunk l n).dropLast, c.length = n :=
  ⟨chunk_flatten l n h, chunk_mem_ne_nil_length l n h, chunk_dropLast_length l n h⟩

theorem C10_chunk_partition_witness :
    (1 : Nat) ≤ 2 ∧
      ((chunk [1, 2, 3, 4, 5] 2).flatten = [1, 2, 3, 4, 5] ∧
        (∀ c ∈ chunk [1, 2, 3, 4, 5] 2, c ≠ [] ∧ c.length ≤ 2) ∧
        ∀ c ∈ (chunk [1, 2, 3, 4, 5] 2).dropLast, c.length = 2) :=
  ⟨by decide, C10_chunk_partition [1, 2, 3, 4, 5] 2 (by decide)⟩

/-! ## All-consonant strings (claim C6) -/

theorem en_cons_not_vowel : ∀ c ∈ en_profile.consonants, isVowel en_profile c = false := by
  decide

theorem en_diph_head_not_cons :
    ∀ d ∈ en_profile.diphthongs, isConsonant en_profile d.headI = false := by
  decide

theorem en_diph_never_heads {t : Str} (ht : ∀ c ∈ t, isConsonant en_profile c = true) :
    ∀ d ∈ en_profile.diphthongs, d.isPrefixOf t = false := by
  intro d hd
  cases hp : d.isPrefixOf t
  · rfl
  · exfalso
    have hpre := List.isPrefixOf_iff_prefix.mp hp
    cases d with
    | nil => revert hd; decide
    | cons c r =>
        obtain ⟨rest, hrest⟩ := hpre
        have hct : c ∈ t := by
          rw [← hrest]
          simp
        have hcons := ht c hct
        have hnot := en_diph_head_not_cons (c :: r) hd
        rw [List.headI_cons] at hnot
        rw [hnot] at hcons
        exact Bool.false_ne_true hcons

theorem nucleusLens_eq_nil_of_cons {t : Str}
    (ht : ∀ c ∈ t, isConsonant en_profile c = true) : nucleusLens en_profile t = [] := by
  unfold nucleusLens
  rw [List.append_eq_nil]
  constructor
  · cases t with
    | nil => rfl
    | cons c r =>
        have hcv : isVowel en_profile c = false :=
          en_cons_not_vowel c (List.mem_of_elem_eq_true (ht c (by simp)))
        simp [hcv]
  · rw [List.filterMap_eq_nil_iff]
    intro d hd
    rw [en_diph_never_heads ht d hd]
    rfl

theorem matchGroupAt_eq_none_of_cons {s : Str}
    (hs : ∀ c ∈ s, isConsonant en_profile c = true) :
    matchGroupAt en_profile s = none := by
  unfold matchGroupAt
  rw [List.findSome?_eq_none_iff]
  intro k _
  have : nucleusLens en_profile (s.drop k) = [] :=
    nucleusLens_eq_nil_of_cons fun c hc => hs c (List.mem_of_mem_drop hc)
  rw [this]
  rfl

theorem findall_syllable_eq_nil_of_cons {s : Str}
    (hs : ∀ c ∈ s, isConsonant en_profile c = true) :
    findall_syllable en_profile s = [] := by
  unfold findall_syllable
  rw [List.filterMap_eq_nil_iff]
  intro p _
  split
  · exact matchGroupAt_eq_none_of_cons fun c hc => hs c (List.mem_of_mem_drop hc)
  · rfl

/-- C6: a word whose (non-empty) transcription consists solely of consonants
of the English profile gets no primary-matcher match, and `syllabify` with
`add_boundaries = false` falls back to the consonant matcher and returns the
whole consonant run — never the empty string. -/
theorem C6_fallback_consonant_run (word : Str) (ipa_converter : Str → Str)
    (h1 : ipa_converter word ≠ [])
    (h2 : ∀ c ∈ ipa_converter word, isConsonant en_profile c = true) :
    findall_syllable en_profile (ipa_converter word) = [] ∧
      syllabify word ipa_converter en_profile false = ipa_converter word ∧
      syllabify word ipa_converter en_profile false ≠ [] := by
  have hfind := findall_syllable_eq_nil_of_cons h2
  have hfall : findall_consonant en_profile (ipa_converter word)
      = [ipa_converter word] := by
    unfold findall_consonant
    rw [if_pos ⟨h1, List.all_eq_true.mpr h2⟩]
  have h2nd : syllabify word ipa_converter en_profile false = ipa_converter word := by
    show (if findall_syllable en_profile (ipa_converter word) ≠ [] then
            joinUnderscore (findall_syllable en_profile (ipa_converter word))
          else joinUnderscore (findall_consonant en_profile (ipa_converter word)))
        = ipa_converter word
    rw [hfind, hfall]
    simp [joinUnderscore]
  exact ⟨hfind, h2nd, h2nd ▸ h1⟩

theorem C6_fallback_consonant_run_witness :
    ("ptk".data ≠ ([] : Str)) ∧ (∀ c ∈ "ptk".data, isConsonant en_profile c = true) ∧
      (findall_syllable en_profile "ptk".data = [] ∧
        syllabify "ptk".data (fun w => w) en_profile false = "ptk".data ∧
        syllabify "ptk".data (fun w => w) en_profile false ≠ []) :=
  ⟨by decide, by decide,
    C6_fallback_consonant_run "ptk".data (fun w => w) (by decide) (by decide)⟩

/-! ## Empty transcription (claim C8) -/

theorem nucleusLens_nil_all_zero (P : Profile) : ∀ x ∈ nucleusLens P [], x = 0 := by
  intro x hx
  unfold nucleusLens at hx
  rw [List.nil_append] at hx
  obtain ⟨d, -, hd⟩ := List.mem_filterMap.mp hx
  split at hd
  · next hp =>
      have : d = [] := List.prefix_nil.mp (List.isPrefixOf_iff_prefix.mp hp)
      subst this
      exact (Option.some.inj hd).symm
  · exact absurd hd (by simp)

theorem matchGroupAt_nil (P : Profile) :
    matchGroupAt P [] = none ∨ matchGroupAt P [] = some [] := by
  unfold matchGroupAt
  show ((descRange (consRunLen P [])).findSome? fun k =>
      (nucleusLens P (List.drop k [])).findSome? fun nl =>
        (descRange (consRunLen P ((List.drop k []).drop nl))).findSome? fun cl =>
          if contextOk P (((List.drop k []).drop nl).drop cl)
          then some (List.take (k + nl + cl) []) else none) = none ∨ _
  have hdesc : descRange (consRunLen P ([] : Str)) = [0] := rfl
  rw [hdesc]
  rw [List.findSome?_cons]
  have hdropk : ∀ k : Nat, List.drop k ([] : Str) = [] := fun k => List.drop_nil
  cases hn : nucleusLens P [] with
  | nil =>
      left
      simp [hn]
  | cons x rest =>
      right
      have hx : x = 0 := nucleusLens_nil_all_zero P x (by rw [hn]; simp)
      subst hx
      simp only [List.drop_nil, hn, List.findSome?_cons]
      have hctx : contextOk P ([] : Str) = true := by
        simp [contextOk]
      simp only [hctx, descRange, consRunLen, List.drop_nil, hn, List.findSome?_cons]
      rfl

theorem syllabify_empty_transcription (word : Str) (ipa_converter : Str → Str)
    (P : Profile) (h : ipa_converter word = []) (b : Bool) :
    syllabify word ipa_converter P b = if b then ['#', '#'] else [] := by
  have hfs : findall_syllable P [] = [] ∨ findall_syllable P [] = [[]] := by
    unfold findall_syllable
    rcases matchGroupAt_nil P with hm | hm
    · left
      simp [hm, lookbehindOk]
    · right
      simp [hm, lookbehindOk]
      rfl
  have hfc : findall_consonant P ([] : Str) = [] := by
    simp [findall_consonant]
  show (if b then
          '#' :: (if findall_syllable P (ipa_converter word) ≠ [] then
              joinUnderscore (findall_syllable P (ipa_converter word))
            else joinUnderscore (findall_consonant P (ipa_converter word))) ++ ['#']
        else if findall_syllable P (ipa_converter word) ≠ [] then
            joinUnderscore (findall_syllable P (ipa_converter word))
          else joinUnderscore (findall_consonant P (ipa_converter word)))
      = if b then ['#', '#'] else []
  rw [h]
  rcases hfs with hfs | hfs
  · rw [hfs, hfc]
    simp [joinUnderscore]
  · rw [hfs]
    simp [joinUnderscore]

/-- C8: a word whose transcription is the empty string syllabifies to exactly
`##` with boundaries and to the empty string without; and `syllabify_line`
never keeps a `##` result in its syllables list. -/
theorem C8_empty_word (word : Str) (ipa_converter : Str → Str) (P : Profile)
    (h : ipa_converter word = []) :
    syllabify word ipa_converter P true = ['#', '#'] ∧
      syllabify word ipa_converter P false = [] ∧
      ∀ (line : Str) (not_symbol : Char → Bool) (add_boundaries : Bool)
        (ss : List Str),
        syllabify_line line ipa_converter P not_symbol add_boundaries false
            = .syllables ss → ['#', '#'] ∉ ss := by
  refine ⟨by simpa using syllabify_empty_transcription word ipa_converter P h true,
    by simpa using syllabify_empty_transcription word ipa_converter P h false, ?_⟩
  intro line not_symbol add_boundaries ss hss
  have hs : ss = surviving ipa_converter P add_boundaries
      (tokenize (subNotSymbol not_symbol line)) := by
    simp only [syllabify_line, if_neg (by simp : ¬(false = true))] at hss
    exact (LineResult.syllables.inj hss).symm
  intro hmem
  rw [hs] at hmem
  unfold surviving at hmem
  have := (List.mem_filter.mp hmem).2
  simp at this

theorem C8_empty_word_witness :
    ((fun _ : Str => ([] : Str)) [] = []) ∧
      (syllabify [] (fun _ : Str => ([] : Str)) en_profile true = ['#', '#'] ∧
        syllabify [] (fun _ : Str => ([] : Str)) en_profile false = [] ∧
        ∀ (line : Str) (not_symbol : Char → Bool) (add_boundaries : Bool)
          (ss : List Str),
          syllabify_line line (fun _ : Str => ([] : Str)) en_profile not_symbol
              add_boundaries false = .syllables ss → ['#', '#'] ∉ ss) :=
  ⟨rfl, C8_empty_word [] (fun _ : Str => ([] : Str)) en_profile rfl⟩

/-! ## Strings over the single-character alphabet (claim C5's coverage) -/

theorem en_vowel_not_cons : ∀ c ∈ en_profile.vowels, isConsonant en_profile c = false := by
  decide

theorem en_diph_head_not_vowel :
    ∀ d ∈ en_profile.diphthongs, isVowel en_profile d.headI = false := by
  decide

theorem en_diph_no_lead {t : Str} (ht : overAlphabet en_profile t) :
    ∀ d ∈ en_profile.diphthongs, d.isPrefixOf t = false := by
  intro d hd
  cases hp : d.isPrefixOf t
  · rfl
  · exfalso
    have hpre := List.isPrefixOf_iff_prefix.mp hp
    cases d with
    | nil => revert hd; decide
    | cons c r =>
        obtain ⟨rest, hrest⟩ := hpre
        have hct : c ∈ t := by
          rw [← hrest]
          simp
        rcases ht c hct with hv | hc
        · have hnv := en_diph_head_not_vowel (c :: r) hd
          rw [List.headI_cons] at hnv
          rw [hnv] at hv
          exact Bool.false_ne_true hv
        · have hnc := en_diph_head_not_cons (c :: r) hd
          rw [List.headI_cons] at hnc
          rw [hnc] at hc
          exact Bool.false_ne_true hc

theorem en_diph_no_tail {t : Str} (ht : overAlphabet en_profile t) :
    ∀ d ∈ en_profile.diphthongs, d.isSuffixOf t = false := by
  intro d hd
  cases hp : d.isSuffixOf t
  · rfl
  · exfalso
    have hsuf := List.isSuffixOf_iff_suffix.mp hp
    cases d with
    | nil => revert hd; decide
    | cons c r =>
        have hct : c ∈ t := List.IsSuffix.mem (by simp) hsuf
        rcases ht c hct with hv | hc
        · have hnv := en_diph_head_not_vowel (c :: r) hd
          rw [List.headI_cons] at hnv
          rw [hnv] at hv
          exact Bool.false_ne_true hv
        · have hnc := en_diph_head_not_cons (c :: r) hd
          rw [List.headI_cons] at hnc
          rw [hnc] at hc
          exact Bool.false_ne_true hc

theorem lookbehindOk_clean {pre : Str} (h : overAlphabet en_profile pre) :
    lookbehindOk en_profile pre
      = (match pre.getLast? with
          | some c => isVowel en_profile c
          | none => true) := by
  have hany : en_profile.diphthongs.any (·.isSuffixOf pre) = false := by
    rw [List.any_eq_false]
    intro d hd
    simp [en_diph_no_tail h d hd]
  unfold lookbehindOk
  rw [hany]
  cases hgl : pre.getLast? with
  | none =>
      obtain rfl := List.getLast?_eq_none_iff.mp hgl
      rfl
  | some c =>
      have hne : pre.isEmpty = false := by
        cases pre
        · cases hgl
        · rfl
      rw [hne]
      simp

theorem consRunLen_cons_of_cons {P : Profile} {c : Char} (t : Str)
    (h : isConsonant P c = true) : consRunLen P (c :: t) = consRunLen P t + 1 := by
  simp [consRunLen, h]

theorem consRunLen_cons_of_not {P : Profile} {c : Char} (t : Str)
    (h : isConsonant P c = false) : consRunLen P (c :: t) = 0 := by
  simp [consRunLen, h]

theorem drop_consRun_head_not_cons (P : Profile) :
    ∀ (s : Str) (c : Char) (r : Str), s.drop (consRunLen P s) = c :: r →
      isConsonant P c = false := by
  intro s
  induction s with
  | nil =>
      intro c r h
      simp at h
  | cons a t ih =>
      intro c r h
      by_cases ha : isConsonant P a = true
      · rw [consRunLen_cons_of_cons t ha, List.drop_succ_cons] at h
        exact ih c r h
      · rw [consRunLen_cons_of_not t (by simpa using ha), List.drop_zero] at h
        injection h with h1 h2
        subst h1
        simpa using ha

theorem consRunLen_of_all_cons (P : Profile) :
    ∀ s : Str, (∀ c ∈ s, isConsonant P c = true) → consRunLen P s = s.length := by
  intro s
  induction s with
  | nil =>
      intro _
      rfl
  | cons a t ih =>
      intro h
      rw [consRunLen_cons_of_cons t (h a (by simp))]
      simp [ih fun c hc => h c (List.mem_cons_of_mem a hc)]

theorem exists_vowel_decomp :
    ∀ s : Str, overAlphabet en_profile s → (∃ c ∈ s, isVowel en_profile c = true) →
      ∃ v t, s.drop (consRunLen en_profile s) = v :: t ∧ isVowel en_profile v = true := by
  intro s
  induction s with
  | nil =>
      intro _ h
      simp at h
  | cons a r ih =>
      intro hover hex
      by_cases hv : isVowel en_profile a = true
      · refine ⟨a, r, ?_, hv⟩
        have hac : isConsonant en_profile a = false :=
          en_vowel_not_cons a (List.mem_of_elem_eq_true hv)
        rw [consRunLen_cons_of_not r hac, List.drop_zero]
      · have ha : isConsonant en_profile a = true := by
          rcases hover a (by simp) with h1 | h1
          · exact absurd h1 hv
          · exact h1
        rw [consRunLen_cons_of_cons r ha, List.drop_succ_cons]
        apply ih (fun c hc => hover c (List.mem_cons_of_mem a hc))
        obtain ⟨c, hc, hcv⟩ := hex
        rcases List.mem_cons.mp hc with rfl | hc'
        · exact absurd hcv hv
        · exact ⟨c, hc', hcv⟩

theorem overAlphabet_drop {s : Str} (h : overAlphabet en_profile s) (n : Nat) :
    overAlphabet en_profile (s.drop n) :=
  fun c hc => h c (List.mem_of_mem_drop hc)

theorem overAlphabet_take {s : Str} (h : overAlphabet en_profile s) (n : Nat) :
    overAlphabet en_profile (s.take n) :=
  fun c hc => h c (List.mem_of_mem_take hc)

theorem nucleusLens_clean_vowel {v : Char} {t : Str}
    (h : overAlphabet en_profile (v :: t)) (hv : isVowel en_profile v = true) :
    nucleusLens en_profile (v :: t) = [1] := by
  have hfm : (en_profile.diphthongs.filterMap fun d =>
      if d.isPrefixOf (v :: t) then some d.length else none) = [] := by
    rw [List.filterMap_eq_nil_iff]
    intro d hd
    rw [en_diph_no_lead h d hd]
    rfl
  unfold nucleusLens
  rw [hfm]
  simp [hv]

theorem contextOk_drop_consRun {u : Str} (h : overAlphabet en_profile u) :
    contextOk en_profile (u.drop (consRunLen en_profile u)) = true := by
  cases hd : u.drop (consRunLen en_profile u) with
  | nil => simp [contextOk]
  | cons c r =>
      have hcc : isConsonant en_profile c = false :=
        drop_consRun_head_not_cons en_profile u c r hd
      have hcm : c ∈ u := by
        have hmem : c ∈ u.drop (consRunLen en_profile u) := by
          rw [hd]
          simp
        exact List.mem_of_mem_drop hmem
      have hcv : isVowel en_profile c = true := by
        rcases h c hcm with h1 | h1
        · exact h1
        · rw [h1] at hcc
          exact absurd hcc (by simp)
      simp [contextOk, hcv]

theorem matchGroupAt_clean {s : Str} (h : overAlphabet en_profile s)
    {v : Char} {t : Str} (hd : s.drop (consRunLen en_profile s) = v :: t)
    (hv : isVowel en_profile v = true) :
    matchGroupAt en_profile s
      = some (s.take (consRunLen en_profile s + 1 + consRunLen en_profile t)) := by
  have hdesc : ∀ n : Nat, descRange n = n :: (List.range n).reverse := by
    intro n
    unfold descRange
    rw [List.range_succ, List.reverse_append]
    rfl
  have hvt : overAlphabet en_profile (v :: t) := hd ▸ overAlphabet_drop h _
  have ht : overAlphabet en_profile t := fun c hc => hvt c (List.mem_cons_of_mem v hc)
  unfold matchGroupAt
  rw [hdesc (consRunLen en_profile s), List.findSome?_cons, hd,
    nucleusLens_clean_vowel hvt hv, List.findSome?_cons]
  have hd1 : (v :: t).drop 1 = t := rfl
  rw [hd1, hdesc (consRunLen en_profile t), List.findSome?_cons]
  rw [contextOk_drop_consRun ht]
  simp

theorem lookbehindOk_en_nil : lookbehindOk en_profile [] = true := by decide

theorem findall_clean_cons_vowel {v : Char} {t : Str}
    (h : overAlphabet en_profile (v :: t)) (hv : isVowel en_profile v = true) :
    findall_syllable en_profile (v :: t)
      = ((v :: t).take (1 + consRunLen en_profile t))
          :: findall_syllable en_profile t := by
  have ht : overAlphabet en_profile t := fun c hc => h c (List.mem_cons_of_mem v hc)
  have hvc : isConsonant en_profile v = false :=
    en_vowel_not_cons v (List.mem_of_elem_eq_true hv)
  have hcr : consRunLen en_profile (v :: t) = 0 := consRunLen_cons_of_not t hvc
  have hm : matchGroupAt en_profile (v :: t)
      = some ((v :: t).take (1 + consRunLen en_profile t)) := by
    have hd : (v :: t).drop (consRunLen en_profile (v :: t)) = v :: t := by
      rw [hcr, List.drop_zero]
    have := matchGroupAt_clean h hd hv
    rw [hcr] at this
    simpa using this
  unfold findall_syllable
  have hlen : (v :: t).length + 1 = (t.length + 1) + 1 := by simp
  rw [hlen, List.range_succ_eq_map, List.filterMap_cons]
  have h0 : (if lookbehindOk en_profile ((v :: t).take 0) then
        matchGroupAt en_profile ((v :: t).drop 0) else none)
      = some ((v :: t).take (1 + consRunLen en_profile t)) := by
    rw [List.take_zero, List.drop_zero, lookbehindOk_en_nil]
    simp [hm]
  rw [h0, List.filterMap_map]
  dsimp only
  congr 1
  apply List.filterMap_congr
  intro p hp
  have hp' : p ≤ t.length := by
    simp [List.mem_range] at hp
    omega
  have htake : (v :: t).take (p + 1) = v :: t.take p := rfl
  have hdrop : (v :: t).drop (p + 1) = t.drop p := rfl
  have hcl1 : overAlphabet en_profile (v :: t.take p) := by
    intro c hc
    rcases List.mem_cons.mp hc with rfl | hc'
    · exact h c (by simp)
    · exact overAlphabet_take ht p c hc'
  show (if lookbehindOk en_profile ((v :: t).take (p + 1)) then
      matchGroupAt en_profile ((v :: t).drop (p + 1)) else none)
    = (if lookbehindOk en_profile (t.take p) then
      matchGroupAt en_profile (t.drop p) else none)
  rw [htake, hdrop, lookbehindOk_clean hcl1, lookbehindOk_clean (overAlphabet_take ht p)]
  cases htp : t.take p with
  | nil => simp [hv]
  | cons x xs => rfl

theorem findall_clean_cons_consonant {c₀ : Char} {s' : Str}
    (h : overAlphabet en_profile (c₀ :: s'))
    (hc : isConsonant en_profile c₀ = true)
    (hvex : ∃ c ∈ s', isVowel en_profile c = true) :
    ∃ m rest, findall_syllable en_profile s' = m :: rest ∧
      findall_syllable en_profile (c₀ :: s') = (c₀ :: m) :: rest := by
  have hs' : overAlphabet en_profile s' := fun c hcm => h c (List.mem_cons_of_mem c₀ hcm)
  obtain ⟨v, t, hd, hv⟩ := exists_vowel_decomp s' hs' hvex
  have hm' : matchGroupAt en_profile s'
      = some (s'.take (consRunLen en_profile s' + 1 + consRunLen en_profile t)) :=
    matchGroupAt_clean hs' hd hv
  have hcr : consRunLen en_profile (c₀ :: s') = consRunLen en_profile s' + 1 :=
    consRunLen_cons_of_cons s' hc
  have hm : matchGroupAt en_profile (c₀ :: s')
      = some (c₀ :: s'.take (consRunLen en_profile s' + 1 + consRunLen en_profile t)) := by
    have hd2 : (c₀ :: s').drop (consRunLen en_profile (c₀ :: s')) = v :: t := by
      rw [hcr, List.drop_succ_cons, hd]
    have hthis := matchGroupAt_clean h hd2 hv
    rw [hcr] at hthis
    rw [hthis]
    congr 1
    rw [show consRunLen en_profile s' + 1 + 1 + consRunLen en_profile t
        = (consRunLen en_profile s' + 1 + consRunLen en_profile t) + 1 from by omega]
    rfl
  have hsne : s' ≠ [] := by
    obtain ⟨c, hcm, -⟩ := hvex
    exact List.ne_nil_of_mem hcm
  have hA : findall_syllable en_profile s'
      = (s'.take (consRunLen en_profile s' + 1 + consRunLen en_profile t))
          :: List.filterMap ((fun p => if lookbehindOk en_profile (s'.take p) then
                matchGroupAt en_profile (s'.drop p) else none) ∘ Nat.succ)
              (List.range s'.length) := by
    unfold findall_syllable
    rw [List.range_succ_eq_map, List.filterMap_cons]
    have h0 : (if lookbehindOk en_profile (s'.take 0) then
          matchGroupAt en_profile (s'.drop 0) else none)
        = some (s'.take (consRunLen en_profile s' + 1 + consRunLen en_profile t)) := by
      rw [List.take_zero, List.drop_zero, lookbehindOk_en_nil]
      simp [hm']
    rw [h0, List.filterMap_map]
  have hB : findall_syllable en_profile (c₀ :: s')
      = (c₀ :: s'.take (consRunLen en_profile s' + 1 + consRunLen en_profile t))
          :: List.filterMap ((fun p => if lookbehindOk en_profile (s'.take p) then
                matchGroupAt en_profile (s'.drop p) else none) ∘ Nat.succ)
              (List.range s'.length) := by
    unfold findall_syllable
    have hlen : (c₀ :: s').length + 1 = (s'.length + 1) + 1 := by simp
    rw [hlen, List.range_succ_eq_map, List.filterMap_cons]
    have h0 : (if lookbehindOk en_profile ((c₀ :: s').take 0) then
          matchGroupAt en_profile ((c₀ :: s').drop 0) else none)
        = some (c₀ :: s'.take (consRunLen en_profile s' + 1 + consRunLen en_profile t)) := by
      rw [List.take_zero, List.drop_zero, lookbehindOk_en_nil]
      simp [hm]
    rw [h0, List.filterMap_map]
    dsimp only
    congr 1
    rw [List.range_succ_eq_map, List.filterMap_cons]
    have hcl0 : overAlphabet en_profile [c₀] := by
      intro c hcm
      rcases List.mem_cons.mp hcm with rfl | hcm'
      · exact h c (by simp)
      · simp at hcm'
    have h1 : ((fun p => if lookbehindOk en_profile ((c₀ :: s').take p) then
          matchGroupAt en_profile ((c₀ :: s').drop p) else none) ∘ Nat.succ) 0 = none := by
      show (if lookbehindOk en_profile ((c₀ :: s').take 1) then
          matchGroupAt en_profile ((c₀ :: s').drop 1) else none) = none
      have htk : (c₀ :: s').take 1 = [c₀] := by
        cases s' <;> rfl
      rw [htk, lookbehindOk_clean hcl0]
      have hcv : isVowel en_profile c₀ = false :=
        en_cons_not_vowel c₀ (List.mem_of_elem_eq_true hc)
      simp [hcv]
    rw [h1, List.filterMap_map]
    apply List.filterMap_congr
    intro p hp
    have hp' : p < s'.length := by
      simp [List.mem_range] at hp
      exact hp
    show (if lookbehindOk en_profile ((c₀ :: s').take (p + 1 + 1)) then
        matchGroupAt en_profile ((c₀ :: s').drop (p + 1 + 1)) else none)
      = (if lookbehindOk en_profile (s'.take (p + 1)) then
        matchGroupAt en_profile (s'.drop (p + 1)) else none)
    have htake : (c₀ :: s').take (p + 1 + 1) = c₀ :: s'.take (p + 1) := rfl
    have hdrop : (c₀ :: s').drop (p + 1 + 1) = s'.drop (p + 1) := rfl
    have hcl1 : overAlphabet en_profile (c₀ :: s'.take (p + 1)) := by
      intro c hcm
      rcases List.mem_cons.mp hcm with rfl | hcm'
      · exact h c (by simp)
      · exact overAlphabet_take hs' (p + 1) c hcm'
    rw [htake, hdrop, lookbehindOk_clean hcl1,
      lookbehindOk_clean (overAlphabet_take hs' (p + 1))]
    cases htp : s'.take (p + 1) with
    | nil =>
        exfalso
        have : (s'.take (p + 1)).length = 0 := by rw [htp]; rfl
        rw [List.length_take] at this
        have hlen' : s'.length ≠ 0 := fun hz => hsne (List.length_eq_zero.mp hz)
        omega
    | cons x xs => rfl
  exact ⟨_, _, hA, hB⟩

theorem findall_clean_cover :
    ∀ (N : Nat) (s : Str), s.length ≤ N → overAlphabet en_profile s →
      (∃ c ∈ s, isVowel en_profile c = true) →
      ∃ m rest, findall_syllable en_profile s = m :: rest ∧
        ∀ c : Char, s.count c ≤ ((m :: rest).flatten).count c := by
  intro N
  induction N with
  | zero =>
      intro s hl _ hex
      obtain rfl := List.length_eq_zero.mp (Nat.le_zero.mp hl)
      simp at hex
  | succ N ih =>
      intro s hl hover hex
      cases s with
      | nil => simp at hex
      | cons a t =>
          have ht : overAlphabet en_profile t := fun c hc =>
            hover c (List.mem_cons_of_mem a hc)
          by_cases hv : isVowel en_profile a = true
          · have hfa := findall_clean_cons_vowel hover hv
            by_cases hvt : ∃ c ∈ t, isVowel en_profile c = true
            · obtain ⟨m, rest, hmt, hcount⟩ := ih t (by simp at hl; omega) ht hvt
              refine ⟨(a :: t).take (1 + consRunLen en_profile t),
                findall_syllable en_profile t, hfa, ?_⟩
              intro c
              rw [List.flatten_cons, List.count_append, hmt]
              have htakeeq : (a :: t).take (1 + consRunLen en_profile t)
                  = [a] ++ t.take (consRunLen en_profile t) := by
                rw [show 1 + consRunLen en_profile t
                    = consRunLen en_profile t + 1 from by omega]
                rfl
              rw [htakeeq, show a :: t = [a] ++ t from rfl, List.count_append,
                List.count_append]
              have h3 := hcount c
              omega
            · have htc : ∀ c ∈ t, isConsonant en_profile c = true := by
                intro c hc
                rcases ht c hc with h1 | h1
                · exact absurd ⟨c, hc, h1⟩ hvt
                · exact h1
              have hft : findall_syllable en_profile t = [] :=
                findall_syllable_eq_nil_of_cons htc
              have hr : consRunLen en_profile t = t.length :=
                consRunLen_of_all_cons en_profile t htc
              refine ⟨(a :: t).take (1 + consRunLen en_profile t), [], ?_, ?_⟩
              · rw [hfa, hft]
              · intro c
                have htakeall : (a :: t).take (1 + consRunLen en_profile t) = a :: t := by
                  rw [hr, show 1 + t.length = t.length + 1 from by omega]
                  calc (a :: t).take (t.length + 1) = a :: t.take t.length := rfl
                    _ = a :: t := by rw [List.take_length]
                rw [htakeall]
                simp
          · have ha : isConsonant en_profile a = true := by
              rcases hover a (by simp) with h1 | h1
              · exact absurd h1 hv
              · exact h1
            have hvt : ∃ c ∈ t, isVowel en_profile c = true := by
              obtain ⟨c, hc, hcv⟩ := hex
              rcases List.mem_cons.mp hc with rfl | hc'
              · exact absurd hcv hv
              · exact ⟨c, hc', hcv⟩
            obtain ⟨m, rest, hmt, hfa⟩ := findall_clean_cons_consonant hover ha hvt
            obtain ⟨m', rest', hmt', hcount⟩ := ih t (by simp at hl; omega) ht hvt
            rw [hmt] at hmt'
            injection hmt' with e1 e2
            subst e1
            subst e2
            refine ⟨a :: m, rest, hfa, ?_⟩
            intro c
            have h3 := hcount c
            rw [List.flatten_cons] at h3 ⊢
            rw [show (a :: m) ++ rest.flatten = [a] ++ (m ++ rest.flatten) from by simp,
              show a :: t = [a] ++ t from rfl, List.count_append, List.count_append]
            omega

/-- C5 amended: every match produced by the syllable matcher is a contiguous
substring of the phonemic string, so no character from outside the string is
introduced; and for a string over the profile's single-character alphabet that
contains at least one vowel, no character is dropped — every character occurs
in the concatenated matches at least as often as in the string.  Multiset
equality nevertheless fails, because a consonant run lying between two nuclei
is captured twice: once as a coda and once as the following onset. -/
theorem C5_amended_conservation (s : Str) (hover : overAlphabet en_profile s) :
    (∀ m ∈ findall_syllable en_profile s, m <:+: s) ∧
      ((∃ c ∈ s, isVowel en_profile c = true) →
        ∀ c : Char, s.count c ≤ ((findall_syllable en_profile s).flatten).count c) := by
  refine ⟨fun m hm => findall_match_contiguous en_profile s m hm, fun hex c => ?_⟩
  obtain ⟨m, rest, hm, hcount⟩ := findall_clean_cover s.length s le_rfl hover hex
  rw [hm]
  exact hcount c

theorem C5_amended_conservation_witness :
    overAlphabet en_profile "pæts".data ∧
      ((∀ m ∈ findall_syllable en_profile "pæts".data, m <:+: "pæts".data) ∧
        ((∃ c ∈ "pæts".data, isVowel en_profile c = true) →
          ∀ c : Char, ("pæts".data).count c
            ≤ ((findall_syllable en_profile "pæts".data).flatten).count c)) :=
  ⟨by unfold overAlphabet; decide,
    C5_amended_conservation "pæts".data (by unfold overAlphabet; decide)⟩
